import Mathlib

/-!
# godive: the signalling server of `main.go`

A shallow embedding of `incNonce`, `getAlias`, `minediveDispatch` and of the
registry steps of `minediveAccept`, followed by the properties proved about them.
-/

namespace Godive

/-! ## Go values -/

/-- Go `byte` (`uint8`): a number below 256; `+` wraps around modulo 256. -/
abbrev Byte := Fin 256

/-- Outcome of a Go call: it returns a value, or it panics. -/
inductive Go (α : Type) where
  | ret (a : α)
  | panicked (msg : String)
  deriving DecidableEq, Repr

/-- Go indexing `a[j]` with an `int` index: `none` is the run-time panic
"index out of range". -/
def index? (a : List Byte) (j : Int) : Option Byte :=
  if 0 ≤ j then a.get? j.toNat else none

/-! ## The nonce counter -/

/-- The error value `errors.New("incNonce: nonce expired")`. -/
def nonceExpired : String := "incNonce: nonce expired"

/-- The loop `for i := 1; i <= dyn; i++` of `incNonce`, entered with the loop
variable `i` and the content `a` of the buffer; `l` is `len(a)`. The result is the
content of the buffer when the function returns, with the returned error. -/
def incNonceLoop (l dyn : Int) (i : Int) (a : List Byte) : Go (List Byte × Option String) :=
  if i ≤ dyn then
    match index? a (l - i) with
    | none => Go.panicked "runtime error: index out of range"
    | some b =>
      if b < 0xff then
        Go.ret (a.set (l - i).toNat (b + 1), none)
      else
        incNonceLoop l dyn (i + 1) (a.set (l - i).toNat 0)
  else
    Go.ret (a, some nonceExpired)
termination_by (dyn + 1 - i).toNat
decreasing_by omega

/-- `incNonce(a, dyn)`, main.go lines 36-49. The buffer is updated in place in Go;
here the updated buffer is returned next to the error (`none` is `nil`). -/
def incNonce (a : List Byte) (dyn : Int) : Go (List Byte × Option String) :=
  let l : Int := a.length
  let dyn := if l < dyn then l else dyn
  incNonceLoop l dyn 1 a

/-! ## Reading a buffer as a number -/

/-- The value of a byte string read as a big-endian unsigned integer. -/
def beVal (bs : List Byte) : Nat :=
  bs.foldl (fun acc b => acc * 256 + b.val) 0

/-- The value of a byte string read least significant byte first. -/
def leVal : List Byte → Nat
  | [] => 0
  | b :: bs => b.val + 256 * leVal bs

/-- Increment with carry, least significant byte first, wrapping to all zeroes. -/
def incLE : List Byte → List Byte
  | [] => []
  | b :: bs => if b < 0xff then (b + 1) :: bs else 0 :: incLE bs

/-- The error `incNonce` returns on a counter whose bytes, least significant first,
are `r`. -/
def expiry (r : List Byte) : Option String :=
  if ∀ b ∈ r, b = 0xff then some nonceExpired else none

/-- Number of trailing bytes `incNonce a d` uses as its counter: `max 0 (min d len)`. -/
def counterWidth (a : List Byte) (d : Int) : Nat :=
  (max 0 (min d (a.length : Int))).toNat


/-! ## Go arrays, slices and strings -/

/-- A Go array `[n]byte`. -/
abbrev Bytes (n : Nat) := { l : List Byte // l.length = n }

/-- The zero value of `[n]byte`. -/
def Bytes.zero (n : Nat) : Bytes n := ⟨List.replicate n 0, List.length_replicate n 0⟩

/-- A Go `[]byte` value: `elems` are the bytes `s[0], ..., s[len(s)-1]`, `spare` are
the bytes of the backing array between `len(s)` and `cap(s)`. -/
structure Slice where
  elems : List Byte
  spare : List Byte
  deriving DecidableEq, Repr

/-- Go `cap(s)`. -/
def Slice.cap (s : Slice) : Nat := s.elems.length + s.spare.length

/-- The slice expression `s[:hi]`, which Go allows up to the capacity of `s`;
`none` is the run-time panic "slice bounds out of range". -/
def Slice.upTo (s : Slice) (hi : Nat) : Option Slice :=
  if hi ≤ s.cap then
    some ⟨(s.elems ++ s.spare).take hi, (s.elems ++ s.spare).drop hi⟩
  else none

/-- Go `copy(dst[:], src)` for an array `dst`: the first `min n (len src)` bytes of
`dst` are overwritten. -/
def copyInto {n : Nat} (dst : Bytes n) (src : List Byte) : Bytes n :=
  ⟨src.take n ++ dst.val.drop src.length, by
    have h := dst.property
    simp only [List.length_append, List.length_take, List.length_drop, h]
    omega⟩

/-- Go `[]byte(s)` for a string `s`: its UTF-8 bytes. Go strings are modelled by
Lean strings; the strings that reach this program are decoded from JSON text. -/
def utf8 (s : String) : List Byte :=
  s.toUTF8.data.toList.map (fun u => Fin.ofNat u.toNat)

/-! ## Data model

The message structures, `minediveClient` and `minediveServer` are declared in
another file of the package; the structures below carry the fields that `main.go`
reads and writes. -/

/-- Modelled from the spec: the struct `idMsg` (missing declaration), the envelope
with the `type` discriminator, also sent as `{"type":"id","id":n}`. -/
structure idMsg where
  Type_ : String
  ID : Nat
  deriving DecidableEq, Repr

/-- Modelled from the spec: the struct `usernameMsg` (missing declaration), with the
display name and the claimed public key in base64. -/
structure usernameMsg where
  Name : String
  PK : String
  deriving DecidableEq, Repr

/-- Modelled from the spec: the struct `dataMsg` (missing declaration): the type
and the remaining data of a ping, carried as decoded. -/
structure dataMsg where
  Type_ : String
  Data : String
  deriving DecidableEq, Repr

/-- Modelled from the spec: the struct `keyReq` (missing declaration), a request
for the key of a target. -/
structure keyReq where
  Target : String
  deriving DecidableEq, Repr

/-- Modelled from the spec: the struct `webrtcMsg` (missing declaration), an offer
or answer with its target and SDP payload. -/
structure webrtcMsg where
  Type_ : String
  Target : String
  SDP : String
  deriving DecidableEq, Repr

/-- Modelled from the spec: the struct `minediveClient` (missing declaration); `ws`
names the connection of the client. -/
structure minediveClient where
  ID : Nat
  Name : String
  PublicKey : Bytes 32
  SecretKey : Bytes 32
  Nonce : Bytes 24
  RemoteAddr : String
  ws : Nat
  deriving DecidableEq

/-- The zero value `var cli minediveClient`. -/
def minediveClient.zero : minediveClient :=
  ⟨0, "", Bytes.zero 32, Bytes.zero 32, Bytes.zero 24, "", 0⟩

/-- Modelled from the spec: the struct `minediveServer` (missing declaration): the
id counter and the registry of clients (the mutexes are left out, the steps below
run one at a time). -/
structure minediveServer where
  nextID : Nat
  clients : List minediveClient

/-! ## The libraries the program calls

The results of the library calls are parameters of the embedding. -/

/-- The library functions called by `getAlias` and `minediveDispatch`. An error is
`some` of its message, `nil` is `none`. -/
structure Lib where
  /-- Result of `json.Unmarshal(jmsg, &imsg)` on a zero `idMsg`. -/
  unmarshalIdMsg : List Byte → idMsg × Option String
  /-- Result of `json.Unmarshal(jmsg, &umsg)` on a zero `usernameMsg`. -/
  unmarshalUsernameMsg : List Byte → usernameMsg × Option String
  /-- Result of `json.Unmarshal(jmsg, &datamsg)` on a zero `dataMsg`. -/
  unmarshalDataMsg : List Byte → dataMsg × Option String
  /-- Result of `json.Unmarshal(jmsg, &kreq)` on a zero `keyReq`. -/
  unmarshalKeyReq : List Byte → keyReq × Option String
  /-- Result of `json.Unmarshal(jmsg, &rtcmsg)` on a zero `webrtcMsg`. -/
  unmarshalWebrtcMsg : List Byte → webrtcMsg × Option String
  /-- Result of `b64.StdEncoding.DecodeString`. -/
  decodeString : String → Slice × Option String
  /-- Result of `b64.StdEncoding.EncodeToString`. -/
  encodeToString : List Byte → String
  /-- The box (tag and ciphertext) that `secretbox.Seal` computes for a message, a
  nonce and a key. -/
  box : List Byte → Bytes 24 → Bytes 32 → List Byte

/-- `secretbox.Seal(out, message, &nonce, &key)`: the box is appended to `out`. The
bytes of `out` are not written to: an append leaves `out[0:len(out)]` as it is. -/
def Lib.seal (lib : Lib) (out message : List Byte) (nonce : Bytes 24) (key : Bytes 32) :
    List Byte :=
  out ++ lib.box message nonce key

/-! ## The alias codec -/

/-- `getAlias(username, gw)`, main.go lines 51-57: the alias, the error, and the
client after the call (`gw` is a pointer). -/
def getAlias (lib : Lib) (username : String) (gw : minediveClient) :
    String × Option String × minediveClient :=
  let err : Option String := none
  let enc := lib.seal gw.Nonce.val (utf8 username) gw.Nonce gw.SecretKey
  let alias_ := lib.encodeToString enc
  (alias_, err, gw)

/-! ## The message dispatcher -/

/-- What `minediveDispatch` does to the outside, in order. The router operations
`sendKey`, `sendPeer` and `fwdToTarget` are methods of the server defined in another
file: a call to one is recorded with its arguments. -/
inductive Event where
  | log (line : String)
  | send (ws : Nat) (msg : dataMsg)
  | sendKey (cli : Nat) (kreq : keyReq)
  | sendPeer (cli : Nat)
  | fwdToTarget (msg : webrtcMsg)
  deriving DecidableEq, Repr

/-- The run of a call on a client: the client afterwards, the events in order, and
`panic`, which is `none` when the call returns and `some` of the value of the panic
when it panics. -/
structure Run where
  cli : minediveClient
  trace : List Event
  panic : Option String
  deriving DecidableEq

/-- `minediveDispatch(cli, jmsg)`, main.go lines 59-115. -/
def minediveDispatch (lib : Lib) (cli : minediveClient) (jmsg : List Byte) : Run :=
  match lib.unmarshalIdMsg jmsg with
  | (_, some err) => ⟨cli, [Event.log err], none⟩
  | (imsg, none) =>
    let t := [Event.log ("New msg: " ++ imsg.Type_)]
    if imsg.Type_ = "username" then
      match lib.unmarshalUsernameMsg jmsg with
      | (_, some err) => ⟨cli, t ++ [Event.log err], some err⟩
      | (umsg, none) =>
        let cli1 : minediveClient := { cli with Name := umsg.Name }
        let b64pk := (lib.decodeString umsg.PK).1
        match b64pk.upTo 32 with
        | none =>
          ⟨cli1, t, some ("runtime error: slice bounds out of range [:32] with capacity "
            ++ toString b64pk.cap)⟩
        | some src =>
          ⟨{ cli1 with PublicKey := copyInto cli1.PublicKey src.elems }, t, none⟩
    else if imsg.Type_ = "ping" then
      let datamsg := (lib.unmarshalDataMsg jmsg).1
      let datamsg : dataMsg := { datamsg with Type_ := "pong" }
      ⟨cli, t ++ [Event.send cli.ws datamsg], none⟩
    else if imsg.Type_ = "message" then
      ⟨cli, t ++ [Event.log "message not used"], none⟩
    else if imsg.Type_ = "getkey" then
      match lib.unmarshalKeyReq jmsg with
      | (_, some err) => ⟨cli, t ++ [Event.log err], some err⟩
      | (kreq, none) => ⟨cli, t ++ [Event.sendKey cli.ID kreq], none⟩
    else if imsg.Type_ = "getalias" then
      ⟨cli, t ++ [Event.log "getalias not used"], none⟩
    else if imsg.Type_ = "getpeers" then
      ⟨cli, t ++ [Event.sendPeer cli.ID], none⟩
    else if imsg.Type_ = "offer" then
      match lib.unmarshalWebrtcMsg jmsg with
      | (_, some err) => ⟨cli, t ++ [Event.log err], none⟩
      | (rtcmsg, none) => ⟨cli, t ++ [Event.fwdToTarget rtcmsg], none⟩
    else if imsg.Type_ = "answer" then
      match lib.unmarshalWebrtcMsg jmsg with
      | (_, some err) => ⟨cli, t ++ [Event.log err], none⟩
      | (rtcmsg, none) => ⟨cli, t ++ [Event.fwdToTarget rtcmsg], none⟩
    else
      ⟨cli, t ++ [Event.log imsg.Type_], none⟩

/-! ## The registry and the connection session -/

/-- Modelled from the spec: the method `deleteClientByName` of the server, defined in
another file; section 4.3 says it "removes the first client whose `name` equals the
given value; no-op if none match". The same section notes that a connection that
never set a name is never removed, so the theorems below use this definition only
for names that are not empty. -/
def deleteClientByName (s : minediveServer) (name : String) : minediveServer :=
  { s with clients := s.clients.eraseP (fun c => c.Name == name) }

/-- What the start of `minediveAccept` leaves: the server, the id given to the
connection, the client when it was registered, the id message when it was sent,
and the value of the panic when the random source failed. -/
structure Accepted where
  server : minediveServer
  id : Nat
  cli : Option minediveClient
  sent : Option idMsg
  panic : Option String

/-- The start of `minediveAccept`, main.go lines 117-134, run as one step: the id
is taken from the counter, the secret key is read from the random source and the
client is appended to the registry. `M` is the number of values of the integer
type of `nextID` (declared in another file), `rnd` is what
`io.ReadFull(crand.Reader, ...)` delivers, either the 32 bytes or an error. -/
def acceptClient (M : Nat) (s : minediveServer) (ws : Nat) (addr : String)
    (rnd : Except String (Bytes 32)) : Accepted :=
  let cli := minediveClient.zero
  let cli : minediveClient := { cli with ID := s.nextID }
  let s : minediveServer := { s with nextID := (s.nextID + 1) % M }
  let cli : minediveClient := { cli with ws := ws, RemoteAddr := addr }
  match rnd with
  | Except.error err => ⟨s, cli.ID, none, none, some err⟩
  | Except.ok key =>
    let cli : minediveClient := { cli with SecretKey := key }
    let msg : idMsg := ⟨"id", cli.ID⟩
    ⟨{ s with clients := s.clients ++ [cli] }, cli.ID, some cli, some msg, none⟩

/-- The teardown of `minediveAccept`, main.go lines 138-145, for the client `cli` of
the session whose receive failed: the registry after `s.deleteClientByName(cli.Name)`
(closing the connection and the log lines do not touch the server). -/
def teardown (s : minediveServer) (cli : minediveClient) : minediveServer :=
  deleteClientByName s cli.Name

/-- A step on the registry: a connection is accepted, or the client of a name is
removed. -/
inductive RegistryStep where
  | accept (ws : Nat) (addr : String) (rnd : Except String (Bytes 32))
  | remove (name : String)

/-- One step on the registry: the server afterwards and the ids the step assigned.
`del` is the method `deleteClientByName` of the server. -/
def registryStep (M : Nat) (del : minediveServer → String → minediveServer)
    (s : minediveServer) : RegistryStep → minediveServer × List Nat
  | RegistryStep.accept ws addr rnd => ((acceptClient M s ws addr rnd).server,
      [(acceptClient M s ws addr rnd).id])
  | RegistryStep.remove name => (del s name, [])

/-- A sequence of steps, one at a time: the server afterwards and the ids assigned,
in the order of the accepts. -/
def registryRun (M : Nat) (del : minediveServer → String → minediveServer) :
    minediveServer → List RegistryStep → minediveServer × List Nat
  | s, [] => (s, [])
  | s, op :: ops =>
    ((registryRun M del (registryStep M del s op).1 ops).1,
      (registryStep M del s op).2 ++ (registryRun M del (registryStep M del s op).1 ops).2)

/-- Number of accepts in a sequence of steps. -/
def numAccepts : List RegistryStep → Nat
  | [] => 0
  | RegistryStep.accept _ _ _ :: ops => numAccepts ops + 1
  | RegistryStep.remove _ :: ops => numAccepts ops

/-! ## An environment for evaluating the definitions

The frames, keys and aliases below are the inputs at which the definitions are
evaluated; `exampleLib` lists what the libraries return on them. -/

/-- The frame `{"type":"username","name":5}`. -/
def frameNameNumber : List Byte := utf8 "\x7b\"type\":\"username\",\"name\":5\x7d"

/-- The frame `{"type":"username","name":"a"}`, without `pk`. -/
def frameNoKey : List Byte := utf8 "\x7b\"type\":\"username\",\"name\":\"a\"\x7d"

/-- Base64 of the 33 bytes 1, 2, ..., 33. -/
def keyText : String := "AQIDBAUGBwgJCgsMDQ4PEBESExQVFhcYGRobHB0eHyAh"

/-- The frame `{"type":"username","name":"alice","pk":"AQID...yAh"}`. -/
def frameAlice : List Byte :=
  utf8 ("\x7b\"type\":\"username\",\"name\":\"alice\",\"pk\":\"" ++ keyText ++ "\"\x7d")

/-- The frame `{`, which is not JSON. -/
def frameBrace : List Byte := utf8 "\x7b"

/-- The bytes 1, 2, ..., 33. -/
def keyBytes : List Byte := (List.range' 1 33).map (fun n => Fin.ofNat n)

/-- Base64 of 40 zero bytes followed by the byte 97. -/
def aliasText : String := "AAAAAAAAAAAAAAAAAAAAAAAAAAAAAAAAAAAAAAAAAAAAAAAAAAAAAGE="

/-- The results of `encoding/json` and `encoding/base64` on the inputs above; any
other frame is answered like text that is not JSON and any other base64 text like
the empty string. The box stands in for the one of `secretbox`: 16 bytes of tag,
then as many bytes as the message has. -/
def exampleLib : Lib where
  unmarshalIdMsg := fun f =>
    if f = frameNameNumber ∨ f = frameNoKey ∨ f = frameAlice then (⟨"username", 0⟩, none)
    else (⟨"", 0⟩, some "unexpected end of JSON input")
  unmarshalUsernameMsg := fun f =>
    if f = frameNameNumber then
      (⟨"", ""⟩, some
        "json: cannot unmarshal number into Go struct field usernameMsg.name of type string")
    else if f = frameNoKey then (⟨"a", ""⟩, none)
    else if f = frameAlice then (⟨"alice", keyText⟩, none)
    else (⟨"", ""⟩, some "unexpected end of JSON input")
  unmarshalDataMsg := fun _ => (⟨"", ""⟩, some "unexpected end of JSON input")
  unmarshalKeyReq := fun _ => (⟨""⟩, some "unexpected end of JSON input")
  unmarshalWebrtcMsg := fun _ => (⟨"", "", ""⟩, some "unexpected end of JSON input")
  decodeString := fun t =>
    if t = keyText then (⟨keyBytes, []⟩, none)
    else if t = aliasText then (⟨List.replicate 40 0 ++ [97], [0]⟩, none)
    else (⟨[], []⟩, none)
  encodeToString := fun bs =>
    if bs = List.replicate 40 0 ++ [97] then aliasText else ""
  box := fun m _ _ => List.replicate 16 0 ++ m

/-- A client with id 1 and no name yet. -/
def client1 : minediveClient := { minediveClient.zero with ID := 1, ws := 1 }

/-- A client with id 2 and no name yet. -/
def client2 : minediveClient := { minediveClient.zero with ID := 2, ws := 2 }

/-- A registry with the two clients above. -/
def server12 : minediveServer := ⟨3, [client1, client2]⟩

/-- A client with id 1 that has set the name "alice". -/
def aliceFirst : minediveClient :=
  { minediveClient.zero with ID := 1, Name := "alice", ws := 1 }

/-- A client with id 2 that has set the name "bob". -/
def bob : minediveClient :=
  { minediveClient.zero with ID := 2, Name := "bob", ws := 2 }

/-- A client with id 3 on another connection that has also set the name "alice". -/
def aliceSecond : minediveClient :=
  { minediveClient.zero with ID := 3, Name := "alice", ws := 3 }

/-- A registry with the three named clients above, in the order they connected. -/
def serverNamed : minediveServer := ⟨4, [aliceFirst, bob, aliceSecond]⟩

/-! ## Proofs: the nonce counter -/

theorem index?_append_cons (p q : List Byte) (b : Byte) (j : Int) (hj : j = p.length) :
    index? (p ++ b :: q) j = some b := by
  subst hj
  have h : (p ++ b :: q).get? p.length = some b := by
    induction p with
    | nil => rfl
    | cons x p ih => simpa using ih
  simpa [index?] using h

theorem set_append_cons (p q : List Byte) (b c : Byte) :
    (p ++ b :: q).set p.length c = p ++ c :: q := by
  induction p with
  | nil => rfl
  | cons x p ih => simp [ih]

theorem byte_eq_ff_of_not_lt (b : Byte) (h : ¬ b < 0xff) : b = 0xff := by
  apply Fin.ext
  have h1 : ¬ b.val < 255 := fun h2 => h (Fin.lt_def.mpr h2)
  have h3 : b.val < 256 := b.isLt
  show b.val = 255
  omega

theorem expiry_cons_lt (b : Byte) (r : List Byte) (h : b < 0xff) : expiry (b :: r) = none := by
  have hne : b ≠ 0xff := fun e => by subst e; exact absurd h (by decide)
  simp [expiry, hne]

theorem expiry_cons_ff (r : List Byte) : expiry ((0xff : Byte) :: r) = expiry r := by
  simp [expiry]

/-- The loop of `incNonce`, entered in front of the part `back` it has visited, with
the bytes of `r` (last one first) still to visit, increments those as one counter. -/
theorem incNonceLoop_eq (r : List Byte) : ∀ (pre back : List Byte) (l dyn i : Int),
    l = (pre.length + r.length + back.length : Nat) → i = (back.length : Int) + 1 →
    max dyn (back.length : Int) = (back.length : Int) + (r.length : Int) →
    incNonceLoop l dyn i (pre ++ r.reverse ++ back)
      = Go.ret (pre ++ (incLE r).reverse ++ back, expiry r) := by
  induction r with
  | nil =>
    intro pre back l dyn i _ hi hdyn
    have hlt : ¬ i ≤ dyn := by
      simp only [List.length_nil, Nat.cast_zero, add_zero] at hdyn
      omega
    rw [incNonceLoop, if_neg hlt]
    simp [incLE, expiry]
  | cons b r ih =>
    intro pre back l dyn i hl hi hdyn
    have hle : i ≤ dyn := by
      simp only [List.length_cons, Nat.cast_add, Nat.cast_one] at hdyn
      omega
    have hidx : l - i = ((pre ++ r.reverse).length : Int) := by
      subst hl hi
      simp only [List.length_cons, List.length_append, List.length_reverse]
      push_cast
      ring
    have hbuf : pre ++ (b :: r).reverse ++ back = (pre ++ r.reverse) ++ b :: back := by
      simp
    have hnat : (l - i).toNat = (pre ++ r.reverse).length := by
      rw [hidx]; exact Int.toNat_natCast _
    rw [incNonceLoop, if_pos hle, hbuf, index?_append_cons _ _ _ _ hidx, hnat]
    by_cases hb : b < 0xff
    · simp only [hb, if_true, set_append_cons, incLE, expiry_cons_lt b r hb]
      simp
    · have hff := byte_eq_ff_of_not_lt b hb
      subst hff
      simp only [hb, if_false, set_append_cons, incLE, expiry_cons_ff]
      have := ih pre (0 :: back) l dyn (i + 1)
        (by subst hl; simp only [List.length_cons]; congr 1; omega)
        (by subst hi; simp only [List.length_cons]; push_cast; ring)
        (by
          simp only [List.length_cons, Nat.cast_add, Nat.cast_one] at hdyn ⊢
          omega)
      simpa using this

theorem length_incLE (r : List Byte) : (incLE r).length = r.length := by
  induction r with
  | nil => rfl
  | cons b r ih =>
    by_cases hb : b < 0xff
    · simp [incLE, hb]
    · simp [incLE, hb, ih]

theorem leVal_incLE (r : List Byte) (h : expiry r = none) : leVal (incLE r) = leVal r + 1 := by
  induction r with
  | nil => simp [expiry] at h
  | cons b r ih =>
    by_cases hb : b < 0xff
    · have hv : (b + 1).val = b.val + 1 := by
        have h1 : b.val < 255 := Fin.lt_def.mp hb
        rw [Fin.val_add]
        show (b.val + 1) % 256 = b.val + 1
        omega
      simp only [incLE, hb, if_true, leVal, hv]
      omega
    · have hff := byte_eq_ff_of_not_lt b hb
      subst hff
      rw [expiry_cons_ff] at h
      simp only [incLE, hb, if_false, leVal, ih h]
      show 0 + 256 * (leVal r + 1) = 255 + 256 * leVal r + 1
      omega

theorem beVal_append_singleton (bs : List Byte) (b : Byte) :
    beVal (bs ++ [b]) = beVal bs * 256 + b.val := by
  simp [beVal, List.foldl_append]

theorem beVal_reverse (r : List Byte) : beVal r.reverse = leVal r := by
  induction r with
  | nil => rfl
  | cons b r ih =>
    rw [List.reverse_cons, beVal_append_singleton, ih, leVal]
    omega

theorem counterWidth_le (a : List Byte) (d : Int) : counterWidth a d ≤ a.length := by
  unfold counterWidth
  omega

/-- What `incNonce` computes: it never panics, the bytes before the counter stay,
the counter is incremented with wrap-around, and the error tells whether it wrapped. -/
theorem incNonce_eq (a : List Byte) (d : Int) :
    incNonce a d = Go.ret
      (a.take (a.length - counterWidth a d)
          ++ (incLE (a.drop (a.length - counterWidth a d)).reverse).reverse,
        expiry (a.drop (a.length - counterWidth a d)).reverse) := by
  have hk := counterWidth_le a d
  have hlen : ((a.drop (a.length - counterWidth a d)).reverse).length = counterWidth a d := by
    simp only [List.length_reverse, List.length_drop]
    omega
  have h := incNonceLoop_eq (a.drop (a.length - counterWidth a d)).reverse
    (a.take (a.length - counterWidth a d)) []
    (a.length : Int) (if (a.length : Int) < d then (a.length : Int) else d) 1
    (by
      rw [hlen]
      simp only [List.length_take, List.length_nil]
      congr 1
      omega)
    (by simp)
    (by
      rw [hlen]
      unfold counterWidth
      simp only [List.length_nil, Nat.cast_zero, zero_add]
      split <;> omega)
  simp only [List.reverse_reverse, List.append_nil, List.take_append_drop] at h
  simp only [incNonce]
  exact h

theorem expiry_reverse (bs : List Byte) :
    expiry bs.reverse = if ∀ b ∈ bs, b = 0xff then some nonceExpired else none := by
  simp [expiry]

/-! ## Theorems: the nonce counter -/

/-- C1: for a buffer `a` and `d ≥ 1`, with `k = min d (len a)`: when `incNonce a d`
returns `nil`, the last `k` bytes read as a big-endian number are one more than
before, the bytes in front of them are unchanged and so is the length. -/
theorem incNonce_increments (a a' : List Byte) (d : Int) (hd : 1 ≤ d)
    (h : incNonce a d = Go.ret (a', none)) :
    beVal (a'.drop (a.length - (min d (a.length : Int)).toNat))
        = beVal (a.drop (a.length - (min d (a.length : Int)).toNat)) + 1
      ∧ a'.take (a.length - (min d (a.length : Int)).toNat)
        = a.take (a.length - (min d (a.length : Int)).toNat)
      ∧ a'.length = a.length := by
  have hk : (min d (a.length : Int)).toNat = counterWidth a d := by
    unfold counterWidth
    omega
  have hle := counterWidth_le a d
  rw [hk]
  rw [incNonce_eq] at h
  injection h with h
  injection h with h1 h2
  have hpre : (a.take (a.length - counterWidth a d)).length = a.length - counterWidth a d := by
    simp
  subst h1
  refine ⟨?_, ?_, ?_⟩
  · rw [List.drop_left' hpre, beVal_reverse, leVal_incLE _ h2, ← beVal_reverse,
      List.reverse_reverse]
  · rw [List.take_left' hpre]
  · simp only [List.length_append, List.length_take, List.length_reverse, length_incLE,
      List.length_drop]
    omega

/-- Witness for C1: the three-byte buffer 01 FE FF with a two-byte counter. -/
theorem incNonce_increments_witness :
    (1 : Int) ≤ 2 ∧ incNonce [1, 0xfe, 0xff] 2 = Go.ret ([1, 0xff, 0], none)
      ∧ beVal (([1, 0xff, 0] : List Byte).drop
            (([1, 0xfe, 0xff] : List Byte).length
              - (min (2 : Int) (([1, 0xfe, 0xff] : List Byte).length : Int)).toNat))
          = beVal (([1, 0xfe, 0xff] : List Byte).drop
            (([1, 0xfe, 0xff] : List Byte).length
              - (min (2 : Int) (([1, 0xfe, 0xff] : List Byte).length : Int)).toNat)) + 1 :=
  ⟨by decide, by simp [incNonce, incNonceLoop, index?],
    (incNonce_increments [1, 0xfe, 0xff] [1, 0xff, 0] 2 (by decide)
      (by simp [incNonce, incNonceLoop, index?])).1⟩

/-- C2: with `k = max 0 (min d (len a))`, `incNonce a d` returns the error "nonce
expired" exactly when each of the last `k` bytes of `a` is 0xFF, and returns `nil`
in every other case (it never panics). -/
theorem incNonce_expired_iff (a : List Byte) (d : Int) :
    ((∃ a', incNonce a d = Go.ret (a', some nonceExpired))
        ↔ ∀ b ∈ a.drop (a.length - counterWidth a d), b = 0xff)
      ∧ ((¬ ∀ b ∈ a.drop (a.length - counterWidth a d), b = 0xff)
        → ∃ a', incNonce a d = Go.ret (a', none)) := by
  rw [incNonce_eq, expiry_reverse]
  by_cases hall : ∀ b ∈ a.drop (a.length - counterWidth a d), b = 0xff
  · rw [if_pos hall]
    exact ⟨⟨fun _ => hall, fun _ => ⟨_, rfl⟩⟩, fun h => absurd hall h⟩
  · rw [if_neg hall]
    refine ⟨⟨fun ⟨a', h⟩ => ?_, fun h => absurd h hall⟩, fun _ => ⟨_, rfl⟩⟩
    injection h with h
    injection h with _ h2
    exact absurd h2 (by simp)

/-! ## Proofs: the message dispatcher -/

/-- A username message whose decoded key has a capacity below 32 makes
`minediveDispatch` panic in `b64pk[:32]`, after the name was set. -/
theorem dispatch_username_short_key_panics (lib : Lib) (cli : minediveClient)
    (jmsg : List Byte) (imsg : idMsg) (umsg : usernameMsg)
    (hid : lib.unmarshalIdMsg jmsg = (imsg, none)) (ht : imsg.Type_ = "username")
    (hu : lib.unmarshalUsernameMsg jmsg = (umsg, none))
    (hcap : (lib.decodeString umsg.PK).1.cap < 32) :
    minediveDispatch lib cli jmsg
      = ⟨{ cli with Name := umsg.Name }, [Event.log "New msg: username"],
          some ("runtime error: slice bounds out of range [:32] with capacity "
            ++ toString (lib.decodeString umsg.PK).1.cap)⟩ := by
  have hno : ¬ 32 ≤ (lib.decodeString umsg.PK).1.cap := by omega
  have hlog : "New msg: " ++ "username" = "New msg: username" := by decide
  simp [minediveDispatch, hid, ht, hu, Slice.upTo, hno, hlog]

/-! ## Theorems: the message dispatcher -/

/-- Counterexample to C3: on the frame `{"type":"username","name":5}` the envelope
decodes with type "username", the payload does not decode, and `minediveDispatch`
panics instead of returning. -/
theorem dispatch_name_number_panics :
    exampleLib.unmarshalIdMsg frameNameNumber = (⟨"username", 0⟩, none)
      ∧ (exampleLib.unmarshalUsernameMsg frameNameNumber).2 ≠ none
      ∧ (minediveDispatch exampleLib client1 frameNameNumber).panic ≠ none := by
  decide

/-- C3, amended: when the envelope decodes with type "username" or "getkey" and the
payload of that type fails to decode with error `e`, `minediveDispatch` logs `e`
and panics with it (`log.Panic`); before that it leaves the client as it is, sends
nothing and calls no router operation. -/
theorem dispatch_payload_error_panics (lib : Lib) (cli : minediveClient) (jmsg : List Byte)
    (imsg : idMsg) (e : String) (hid : lib.unmarshalIdMsg jmsg = (imsg, none))
    (h : (imsg.Type_ = "username" ∧ (lib.unmarshalUsernameMsg jmsg).2 = some e)
      ∨ (imsg.Type_ = "getkey" ∧ (lib.unmarshalKeyReq jmsg).2 = some e)) :
    minediveDispatch lib cli jmsg
      = ⟨cli, [Event.log ("New msg: " ++ imsg.Type_), Event.log e], some e⟩ := by
  rcases h with ⟨ht, he⟩ | ⟨ht, he⟩
  · rcases hu : lib.unmarshalUsernameMsg jmsg with ⟨u, eo⟩
    rw [hu] at he
    simp only at he
    subst he
    simp [minediveDispatch, hid, ht, hu]
  · rcases hk : lib.unmarshalKeyReq jmsg with ⟨k, eo⟩
    rw [hk] at he
    simp only at he
    subst he
    simp [minediveDispatch, hid, ht, hk]

/-- Witness for C3, amended: the frame `{"type":"username","name":5}`. -/
theorem dispatch_payload_error_panics_witness :
    minediveDispatch exampleLib client1 frameNameNumber
      = ⟨client1, [Event.log ("New msg: " ++ "username"), Event.log
          "json: cannot unmarshal number into Go struct field usernameMsg.name of type string"],
        some "json: cannot unmarshal number into Go struct field usernameMsg.name of type string"⟩ :=
  dispatch_payload_error_panics exampleLib client1 frameNameNumber ⟨"username", 0⟩ _
    (by decide) (Or.inl ⟨by decide, by decide⟩)

/-- C4: when the envelope of a frame fails to decode, with error `e`,
`minediveDispatch` returns without a panic, its only effect is the log line `e` (no
message is sent, no router operation is called) and the client, with its name, keys,
nonce and id, is as before. -/
theorem dispatch_bad_envelope_drops (lib : Lib) (cli : minediveClient) (jmsg : List Byte)
    (e : String) (h : (lib.unmarshalIdMsg jmsg).2 = some e) :
    minediveDispatch lib cli jmsg = ⟨cli, [Event.log e], none⟩ := by
  rcases hid : lib.unmarshalIdMsg jmsg with ⟨m, eo⟩
  rw [hid] at h
  simp only at h
  subst h
  simp [minediveDispatch, hid]

/-- Witness for C4: the frame `{`. -/
theorem dispatch_bad_envelope_drops_witness :
    (exampleLib.unmarshalIdMsg frameBrace).2 = some "unexpected end of JSON input"
      ∧ minediveDispatch exampleLib client1 frameBrace
        = ⟨client1, [Event.log "unexpected end of JSON input"], none⟩ :=
  ⟨by decide, dispatch_bad_envelope_drops exampleLib client1 frameBrace _ (by decide)⟩

/-- C6: when a frame decodes as a username message with name `n` and its `pk` is
valid base64 of at least 32 bytes, then after `minediveDispatch` the name of the
client is `n`, its public key is the first 32 decoded bytes, its id, secret key and
nonce are as before, the call returns and nothing is sent: the only event is the log
line of the message type. -/
theorem dispatch_username_sets_name_and_key (lib : Lib) (cli : minediveClient)
    (jmsg : List Byte) (imsg : idMsg) (umsg : usernameMsg) (n : String) (pk : Slice)
    (hid : lib.unmarshalIdMsg jmsg = (imsg, none)) (ht : imsg.Type_ = "username")
    (hu : lib.unmarshalUsernameMsg jmsg = (umsg, none)) (hn : umsg.Name = n)
    (hpk : lib.decodeString umsg.PK = (pk, none)) (hlen : 32 ≤ pk.elems.length) :
    (minediveDispatch lib cli jmsg).cli.Name = n
      ∧ (minediveDispatch lib cli jmsg).cli.PublicKey.val = pk.elems.take 32
      ∧ (minediveDispatch lib cli jmsg).cli.ID = cli.ID
      ∧ (minediveDispatch lib cli jmsg).cli.SecretKey = cli.SecretKey
      ∧ (minediveDispatch lib cli jmsg).cli.Nonce = cli.Nonce
      ∧ (minediveDispatch lib cli jmsg).panic = none
      ∧ (minediveDispatch lib cli jmsg).trace = [Event.log "New msg: username"] := by
  have hcap : 32 ≤ pk.cap := by
    unfold Slice.cap
    omega
  have hrun : minediveDispatch lib cli jmsg
      = ⟨{ cli with Name := umsg.Name,
                    PublicKey := copyInto cli.PublicKey ((pk.elems ++ pk.spare).take 32) },
          [Event.log ("New msg: " ++ imsg.Type_)], none⟩ := by
    simp [minediveDispatch, hid, ht, hu, hpk, Slice.upTo, hcap]
  rw [hrun, ht]
  refine ⟨hn, ?_, rfl, rfl, rfl, rfl, ?_⟩
  swap
  · show [Event.log ("New msg: " ++ "username")] = [Event.log "New msg: username"]
    decide
  have h32 : ((pk.elems ++ pk.spare).take 32).length = 32 := by
    simp only [List.length_take, List.length_append]
    omega
  show ((pk.elems ++ pk.spare).take 32).take 32
      ++ cli.PublicKey.val.drop ((pk.elems ++ pk.spare).take 32).length = pk.elems.take 32
  rw [h32, List.drop_of_length_le (by rw [cli.PublicKey.property]), List.append_nil,
    List.take_take]
  show List.take 32 (pk.elems ++ pk.spare) = List.take 32 pk.elems
  exact List.take_append_of_le_length hlen

/-- Witness for C6: the frame of "alice" with a key of 33 bytes. -/
theorem dispatch_username_sets_name_and_key_witness :
    (minediveDispatch exampleLib client1 frameAlice).cli.Name = "alice"
      ∧ (minediveDispatch exampleLib client1 frameAlice).cli.PublicKey.val = keyBytes.take 32 :=
  have h := dispatch_username_sets_name_and_key exampleLib client1 frameAlice ⟨"username", 0⟩
    ⟨"alice", keyText⟩ "alice" ⟨keyBytes, []⟩ (by decide) (by decide) (by decide) rfl
    (by decide) (by decide)
  ⟨h.1, h.2.1⟩

/-- C10: on the frame `{"type":"username","name":"a"}`, which decodes as a username
message without `pk`, `minediveDispatch` sets the name and then panics in
`b64pk[:32]`, for every client: the decoded key is an empty slice of capacity 0. -/
theorem dispatch_no_key_panics (cli : minediveClient) :
    exampleLib.unmarshalIdMsg frameNoKey = (⟨"username", 0⟩, none)
      ∧ exampleLib.unmarshalUsernameMsg frameNoKey = (⟨"a", ""⟩, none)
      ∧ exampleLib.decodeString "" = (⟨[], []⟩, none)
      ∧ minediveDispatch exampleLib cli frameNoKey
        = ⟨{ cli with Name := "a" }, [Event.log "New msg: username"],
            some "runtime error: slice bounds out of range [:32] with capacity 0"⟩ :=
  ⟨by decide, by decide, by decide,
    dispatch_username_short_key_panics exampleLib cli frameNoKey ⟨"username", 0⟩ ⟨"a", ""⟩
      (by decide) rfl (by decide) (by decide)⟩

/-! ## Theorems: the alias codec -/

/-- Counterexample to C5: `getAlias` leaves the nonce of the client as it was, and a
second call seals under the same nonce and gives the same alias. -/
theorem getAlias_nonce_not_advanced :
    (getAlias exampleLib "a" client1).2.2.Nonce = client1.Nonce
      ∧ getAlias exampleLib "a" (getAlias exampleLib "a" client1).2.2
        = getAlias exampleLib "a" client1 := by
  decide

/-- C5, amended: `getAlias` does not change the client; it seals under the nonce the
client holds, so a second call on the same client seals under that same nonce.
Advancing the nonce is left to the caller. -/
theorem getAlias_reuses_nonce (lib : Lib) (u1 u2 : String) (gw : minediveClient) :
    (getAlias lib u1 gw).2.2 = gw
      ∧ (getAlias lib u1 gw).1
        = lib.encodeToString (lib.seal gw.Nonce.val (utf8 u1) gw.Nonce gw.SecretKey)
      ∧ (getAlias lib u2 (getAlias lib u1 gw).2.2).1
        = lib.encodeToString (lib.seal gw.Nonce.val (utf8 u2) gw.Nonce gw.SecretKey) :=
  ⟨rfl, rfl, rfl⟩

/-- C9: `getAlias` returns a nil error and the base64 text of the nonce `N` followed
by the box of the username under `N` and the secret key; when the box is 16 bytes
longer than the username and base64 decodes that text back, the decoded alias has
`24 + len(username) + 16` bytes and starts with `N`; the nonce and the secret key of
the client are as before. -/
theorem getAlias_value (lib : Lib) (username : String) (gw : minediveClient)
    (spare : List Byte)
    (hbox : (lib.box (utf8 username) gw.Nonce gw.SecretKey).length
      = (utf8 username).length + 16)
    (hdec : lib.decodeString
        (lib.encodeToString (gw.Nonce.val ++ lib.box (utf8 username) gw.Nonce gw.SecretKey))
      = (⟨gw.Nonce.val ++ lib.box (utf8 username) gw.Nonce gw.SecretKey, spare⟩, none)) :
    (getAlias lib username gw).1
        = lib.encodeToString (gw.Nonce.val ++ lib.box (utf8 username) gw.Nonce gw.SecretKey)
      ∧ (getAlias lib username gw).2.1 = none
      ∧ (lib.decodeString (getAlias lib username gw).1).1.elems.length
        = 24 + (utf8 username).length + 16
      ∧ (lib.decodeString (getAlias lib username gw).1).1.elems.take 24 = gw.Nonce.val
      ∧ (getAlias lib username gw).2.2.Nonce = gw.Nonce
      ∧ (getAlias lib username gw).2.2.SecretKey = gw.SecretKey := by
  have hN : gw.Nonce.val.length = 24 := gw.Nonce.property
  refine ⟨rfl, rfl, ?_, ?_, rfl, rfl⟩
  · show (lib.decodeString (lib.encodeToString
        (gw.Nonce.val ++ lib.box (utf8 username) gw.Nonce gw.SecretKey))).1.elems.length = _
    rw [hdec]
    simp only [List.length_append, hbox, hN]
    omega
  · show (lib.decodeString (lib.encodeToString
        (gw.Nonce.val ++ lib.box (utf8 username) gw.Nonce gw.SecretKey))).1.elems.take 24 = _
    rw [hdec]
    exact List.take_left' hN

/-- Witness for C9: the username "a" on a client with the zero nonce. -/
theorem getAlias_value_witness :
    (getAlias exampleLib "a" client1).1 = aliasText
      ∧ (exampleLib.decodeString (getAlias exampleLib "a" client1).1).1.elems.length
        = 24 + (utf8 "a").length + 16 :=
  have h := getAlias_value exampleLib "a" client1 [0] (by decide) (by decide)
  ⟨by decide, h.2.2.1⟩

/-! ## Proofs: the registry -/

/-- Appending a client whose id is the counter keeps the ids pairwise distinct. -/
theorem nodup_ids_append (cs : List minediveClient) (c : minediveClient) (n : Nat)
    (hn : (cs.map (fun x => x.ID)).Nodup) (hlt : ∀ x ∈ cs, x.ID < n) (hc : c.ID = n) :
    ((cs ++ [c]).map (fun x => x.ID)).Nodup := by
  rw [List.map_append, List.nodup_append]
  refine ⟨hn, by simp, ?_⟩
  intro a ha hb
  simp only [List.map_cons, List.map_nil, List.mem_singleton] at hb
  rcases List.mem_map.mp ha with ⟨x, hx, rfl⟩
  have := hlt x hx
  omega

theorem deleteClientByName_sublist (s : minediveServer) (name : String) :
    (deleteClientByName s name).clients.Sublist s.clients :=
  List.eraseP_sublist _

theorem acceptClient_id (M : Nat) (s : minediveServer) (ws : Nat) (addr : String)
    (rnd : Except String (Bytes 32)) : (acceptClient M s ws addr rnd).id = s.nextID := by
  cases rnd <;> rfl

theorem acceptClient_nextID (M : Nat) (s : minediveServer) (ws : Nat) (addr : String)
    (rnd : Except String (Bytes 32)) :
    (acceptClient M s ws addr rnd).server.nextID = (s.nextID + 1) % M := by
  cases rnd <;> rfl

theorem acceptClient_clients (M : Nat) (s : minediveServer) (ws : Nat) (addr : String)
    (rnd : Except String (Bytes 32)) :
    (acceptClient M s ws addr rnd).server.clients = s.clients
      ∨ ∃ c : minediveClient, c.ID = s.nextID
        ∧ (acceptClient M s ws addr rnd).server.clients = s.clients ++ [c] := by
  cases rnd with
  | error e => exact Or.inl rfl
  | ok key => exact Or.inr ⟨_, rfl, rfl⟩

/-- One step keeps the invariant and tells where the counter and the ids go. -/
theorem registryStep_inv (M : Nat) (del : minediveServer → String → minediveServer)
    (hdel : ∀ s name, (del s name).clients.Sublist s.clients ∧ (del s name).nextID = s.nextID)
    (s : minediveServer) (op : RegistryStep)
    (hn : (s.clients.map (fun x => x.ID)).Nodup) (hlt : ∀ x ∈ s.clients, x.ID < s.nextID)
    (hM : s.nextID + numAccepts [op] < M) :
    ((registryStep M del s op).1.clients.map (fun x => x.ID)).Nodup
      ∧ (∀ x ∈ (registryStep M del s op).1.clients, x.ID < (registryStep M del s op).1.nextID)
      ∧ (registryStep M del s op).1.nextID = s.nextID + numAccepts [op]
      ∧ (∀ i ∈ (registryStep M del s op).2, i = s.nextID)
      ∧ (registryStep M del s op).2.length = numAccepts [op] := by
  cases op with
  | remove name =>
    obtain ⟨hsub, hnext⟩ := hdel s name
    refine ⟨hn.sublist (hsub.map _), fun x hx => ?_, hnext, ?_, rfl⟩
    · show x.ID < (del s name).nextID
      rw [hnext]
      exact hlt x (hsub.subset hx)
    · intro i hi
      simp [registryStep] at hi
  | accept ws addr rnd =>
    have hM1 : s.nextID + 1 < M := by simpa [numAccepts] using hM
    have hnext : (acceptClient M s ws addr rnd).server.nextID = s.nextID + 1 := by
      rw [acceptClient_nextID, Nat.mod_eq_of_lt hM1]
    simp only [registryStep, numAccepts, hnext, List.mem_singleton, List.length_singleton,
      acceptClient_id]
    refine ⟨?_, ?_, trivial, fun i hi => hi, trivial⟩
    · rcases acceptClient_clients M s ws addr rnd with h | ⟨c, hc, h⟩
      · rw [h]; exact hn
      · rw [h]; exact nodup_ids_append _ c _ hn hlt hc
    · intro x hx
      rcases acceptClient_clients M s ws addr rnd with h | ⟨c, hc, h⟩
      · rw [h] at hx
        have := hlt x hx
        omega
      · rw [h, List.mem_append, List.mem_singleton] at hx
        rcases hx with hx | rfl
        · have := hlt x hx
          omega
        · omega

theorem numAccepts_cons (op : RegistryStep) (ops : List RegistryStep) :
    numAccepts (op :: ops) = numAccepts [op] + numAccepts ops := by
  cases op <;> simp [numAccepts, Nat.add_comm]

/-- A run keeps the invariant; the ids it assigns start at the counter and grow. -/
theorem registryRun_inv (M : Nat) (del : minediveServer → String → minediveServer)
    (hdel : ∀ s name, (del s name).clients.Sublist s.clients ∧ (del s name).nextID = s.nextID)
    (ops : List RegistryStep) : ∀ s : minediveServer,
    (s.clients.map (fun x => x.ID)).Nodup → (∀ x ∈ s.clients, x.ID < s.nextID) →
    s.nextID + numAccepts ops < M →
    ((registryRun M del s ops).1.clients.map (fun x => x.ID)).Nodup
      ∧ (registryRun M del s ops).2.Pairwise (fun i j => i < j)
      ∧ ∀ i ∈ (registryRun M del s ops).2, s.nextID ≤ i := by
  induction ops with
  | nil =>
    intro s hn _ _
    exact ⟨hn, List.Pairwise.nil, fun i hi => by simp [registryRun] at hi⟩
  | cons op ops ih =>
    intro s hn hlt hM
    rw [numAccepts_cons] at hM
    obtain ⟨h1, h2, h3, h4, h5⟩ := registryStep_inv M del hdel s op hn hlt (by omega)
    obtain ⟨k1, k2, k3⟩ := ih (registryStep M del s op).1 h1 h2 (by rw [h3]; omega)
    refine ⟨k1, ?_, ?_⟩
    · show ((registryStep M del s op).2
        ++ (registryRun M del (registryStep M del s op).1 ops).2).Pairwise _
      rw [List.pairwise_append]
      refine ⟨?_, k2, ?_⟩
      · cases op with
        | remove name => exact List.Pairwise.nil
        | accept ws addr rnd => exact List.pairwise_singleton _ _
      · intro i hi j hj
        have hi1 := h4 i hi
        have hj1 := k3 j hj
        have hlen : 0 < (registryStep M del s op).2.length := List.length_pos_of_mem hi
        rw [h3] at hj1
        omega
    · intro i hi
      have hi2 : i ∈ (registryStep M del s op).2
          ++ (registryRun M del (registryStep M del s op).1 ops).2 := hi
      rcases List.mem_append.mp hi2 with hi | hi
      · exact le_of_eq (h4 i hi).symm
      · have := k3 i hi
        rw [h3] at this
        omega

theorem eraseP_first_match (pre post : List minediveClient) (c : minediveClient)
    (p : minediveClient → Bool) (hc : p c = true) (hpre : ∀ x ∈ pre, p x = false) :
    (pre ++ c :: post).eraseP p = pre ++ post := by
  induction pre with
  | nil => simp [List.eraseP_cons, hc]
  | cons x pre ih =>
    have hx : p x = false := hpre x (List.mem_cons_self _ _)
    have := ih (fun y hy => hpre y (List.mem_cons_of_mem _ hy))
    simp [List.eraseP_cons, hx, this]

/-! ## Theorems: the registry -/

/-- C7: from a registry whose ids are pairwise distinct and below `nextID`, after any
sequence of accepts and removals (a removal takes clients out and leaves the counter)
during which the counter does not overflow, the ids in the registry are pairwise
distinct, the ids assigned by the accepts are strictly increasing, and each is
greater than every id the registry held at the start. -/
theorem registry_ids_distinct_increasing (M : Nat)
    (del : minediveServer → String → minediveServer) (s : minediveServer)
    (ops : List RegistryStep)
    (hdel : ∀ s name, (del s name).clients.Sublist s.clients ∧ (del s name).nextID = s.nextID)
    (hn : (s.clients.map (fun x => x.ID)).Nodup) (hlt : ∀ x ∈ s.clients, x.ID < s.nextID)
    (hM : s.nextID + numAccepts ops < M) :
    ((registryRun M del s ops).1.clients.map (fun x => x.ID)).Nodup
      ∧ (registryRun M del s ops).2.Pairwise (fun i j => i < j)
      ∧ ∀ i ∈ (registryRun M del s ops).2, ∀ x ∈ s.clients, x.ID < i := by
  obtain ⟨h1, h2, h3⟩ := registryRun_inv M del hdel ops s hn hlt hM
  refine ⟨h1, h2, fun i hi x hx => ?_⟩
  have := h3 i hi
  have := hlt x hx
  omega

/-- Witness for C7: two accepts around a removal by name, on a registry with ids 1
and 2 and a 64-bit counter. -/
theorem registry_ids_distinct_increasing_witness :
    (registryRun (2 ^ 64) deleteClientByName server12
        [RegistryStep.accept 3 "a" (Except.ok (Bytes.zero 32)), RegistryStep.remove "",
          RegistryStep.accept 4 "b" (Except.ok (Bytes.zero 32))]).2 = [3, 4]
      ∧ ((registryRun (2 ^ 64) deleteClientByName server12
        [RegistryStep.accept 3 "a" (Except.ok (Bytes.zero 32)), RegistryStep.remove "",
          RegistryStep.accept 4 "b" (Except.ok (Bytes.zero 32))]).1.clients.map
            (fun x => x.ID)).Nodup :=
  ⟨by decide, (registry_ids_distinct_increasing (2 ^ 64) deleteClientByName server12
    [RegistryStep.accept 3 "a" (Except.ok (Bytes.zero 32)), RegistryStep.remove "",
      RegistryStep.accept 4 "b" (Except.ok (Bytes.zero 32))]
    (fun s name => ⟨deleteClientByName_sublist s name, rfl⟩)
    (by decide) (by decide) (by decide)).1⟩

/-- Counterexample to C8: two registered clients have set the same name "alice", with
"bob" between them; when the receive of the second "alice" fails, the teardown
removes the first one: the second is still registered and the first, whose
connection is open, is gone (also when the removal passes over unnamed clients). -/
theorem teardown_removes_other_client :
    aliceSecond ∈ serverNamed.clients
      ∧ (teardown serverNamed aliceSecond).clients = [bob, aliceSecond]
      ∧ serverNamed.clients.eraseP (fun x => x.Name != "" && x.Name == aliceSecond.Name)
        = [bob, aliceSecond]
      ∧ ¬ (aliceSecond ∉ (teardown serverNamed aliceSecond).clients
        ∧ ∀ c ∈ serverNamed.clients, c ≠ aliceSecond →
          c ∈ (teardown serverNamed aliceSecond).clients) := by
  decide

/-- C8, amended: in a registry with pairwise distinct ids, when `c` has set a name
(it is not empty) and no client in front of `c` has the name of `c`, the teardown
for `c` removes `c`: the registry no longer contains `c` and still contains every
other client; the result is the same when the removal passes over the clients that
have not set a name. -/
theorem teardown_removes_first_named (s : minediveServer) (pre post : List minediveClient)
    (c : minediveClient) (hs : s.clients = pre ++ c :: post)
    (hn : (s.clients.map (fun x => x.ID)).Nodup) (hname : c.Name ≠ "")
    (hpre : ∀ x ∈ pre, x.Name ≠ c.Name) :
    (teardown s c).clients = pre ++ post
      ∧ c ∉ (teardown s c).clients
      ∧ (∀ x ∈ s.clients, x ≠ c → x ∈ (teardown s c).clients)
      ∧ (teardown s c).clients
        = s.clients.eraseP (fun x => x.Name != "" && x.Name == c.Name) := by
  have hskip : (fun x : minediveClient => x.Name != "" && x.Name == c.Name)
      = (fun x : minediveClient => x.Name == c.Name) := by
    funext x
    by_cases hx : x.Name = c.Name
    · simp [hx, hname]
    · simp [hx]
  have hrun : (teardown s c).clients = pre ++ post := by
    show s.clients.eraseP (fun x => x.Name == c.Name) = pre ++ post
    rw [hs]
    exact eraseP_first_match pre post c _ (by simp) (fun x hx => by simpa using hpre x hx)
  have hnd : (pre ++ c :: post).Nodup := by
    rw [hs] at hn
    exact List.Nodup.of_map _ hn
  refine ⟨hrun, ?_, ?_, by rw [hskip]; rfl⟩
  · rw [hrun]
    intro hmem
    rw [List.nodup_append] at hnd
    rcases List.mem_append.mp hmem with h | h
    · exact hnd.2.2 h (List.mem_cons_self _ _)
    · exact (List.nodup_cons.mp hnd.2.1).1 h
  · intro x hx hxc
    rw [hrun]
    rw [hs, List.mem_append, List.mem_cons] at hx
    rcases hx with h | h | h
    · exact List.mem_append_left _ h
    · exact absurd h hxc
    · exact List.mem_append_right _ h

/-- Witness for C8, amended: the receive of "bob" fails, with the first "alice" in
front of it in the registry and the second one behind it. -/
theorem teardown_removes_first_named_witness :
    serverNamed.clients = [aliceFirst] ++ bob :: [aliceSecond]
      ∧ bob.Name ≠ ""
      ∧ (∀ x ∈ [aliceFirst], x.Name ≠ bob.Name)
      ∧ (teardown serverNamed bob).clients = [aliceFirst] ++ [aliceSecond]
      ∧ bob ∉ (teardown serverNamed bob).clients
      ∧ (∀ x ∈ serverNamed.clients, x ≠ bob → x ∈ (teardown serverNamed bob).clients)
      ∧ (teardown serverNamed bob).clients
        = serverNamed.clients.eraseP (fun x => x.Name != "" && x.Name == bob.Name) :=
  ⟨by decide, by decide, by decide,
    teardown_removes_first_named serverNamed [aliceFirst] [aliceSecond] bob (by decide)
      (by decide) (by decide) (by decide)⟩

end Godive
